import Mathlib

/-!
# mavu: directory walker, classifier and explorer

A shallow embedding of `FileManager` (`getAllFiles`, `hasBinaryExtension`,
`isHiddenFile`), `FileReader::readFile`, `Outputs::convertToHex` and
`FileExplorer::explore`, followed by theorems about them.

A `std::string` and a `std::filesystem::path` are lists of characters; the
path separator is `/` (POSIX).
-/

set_option autoImplicit false

namespace Mavu

/-- A `std::string`: a sequence of `char`. -/
abbrev Str := List Char

/-! ## std::filesystem::path decomposition -/

/-- The member `path::filename()`: the characters after the last `/`
(empty when the path ends in `/`). -/
def filename (p : Str) : Str :=
  (p.reverse.takeWhile (fun c => c != '/')).reverse

/-- The index of the last occurrence of `c` (`std::string::rfind`), `none`
for `npos`. -/
def rfind (c : Char) : Str → Option Nat
  | [] => none
  | x :: xs =>
    match rfind c xs with
    | some i => some (i + 1)
    | none => if x = c then some 0 else none

/-- The member `path::extension()`: the suffix of `filename()` that starts at
its last period, and empty when the file name is `.` or `..`, has no period,
or has its only period in first position. -/
def extension (p : Str) : Str :=
  let f := filename p
  if f = ['.'] ∨ f = ['.', '.'] then []
  else
    match rfind '.' f with
    | none => []
    | some 0 => []
    | some (i + 1) => f.drop (i + 1)

/-! ## FileManager: the classifier -/

/-- The set `binaryExtensions` of `FileManager::hasBinaryExtension`, in the
order and with the repetitions of the initialiser list. -/
def binaryExtensions : List Str :=
  [".png", ".jpg", ".jpeg", ".gif", ".bmp", ".webp", ".ico", ".tiff", ".raw", ".svg", ".eps",
   ".ai", ".psd", ".flac", ".aac", ".ogg", ".mp3", ".wav", ".mkv", ".mp4", ".avi", ".mov",
   ".wmv", ".flv", ".webm", ".mpg", ".mpeg", ".3gp", ".dmg", ".iso", ".bin", ".deb", ".tar",
   ".gz", ".zip", ".rar", ".7z", ".tar.gz", ".tar.bz2", ".tar.xz", ".apk", ".mobi", ".epub",
   ".chm", ".odt", ".ods", ".odp", ".pdf", ".csv", ".yml", ".xml", ".json", ".sqlite", ".db",
   ".mdb", ".accdb", ".bak", ".vhd", ".vmdk", ".vdi", ".xpi", ".crx", ".jar", ".war", ".ear",
   ".rpm", ".arj", ".lha", ".cab", ".xz", ".bz2", ".lz", ".lzma", ".z", ".cue", ".vob", ".ifo",
   ".bup", ".sub", ".idx", ".dat", ".m3u", ".nrg", ".srt", ".ass", ".vtt", ".wmf", ".emf",
   ".pcx", ".exr", ".hdr", ".raw", ".dng", ".jxr", ".heif", ".heic", ".3ds", ".obj", ".fbx",
   ".stl", ".ply", ".dae", ".gltf", ".glb", ".x3d", ".xap", ".mdf", ".img", ".bin", ".cue",
   ".iso", ".dmg", ".flac", ".ape", ".wv", ".m4a", ".aac", ".dts", ".mpc", ".spx", ".wma",
   ".aiff", ".au", ".voc", ".tak", ".it", ".mod", ".xm", ".s3m", ".mtm", ".ahx", ".nsf",
   ".kdm", ".m3u8", ".pls", ".cue", ".msi", ".cab", ".torrent", ".nzb", ".dat", ".vhdx",
   ".vdi", ".vbox", ".vdmk", ".vmdk", ".fpk", ".sfs", ".wsf", ".odm", ".ods", ".odp",
   ".odg"].map String.toList

/-- The function `FileManager::hasBinaryExtension`: whether
`filePath.extension()` is found in `binaryExtensions`. -/
def hasBinaryExtension (filePath : Str) : Bool :=
  binaryExtensions.contains (extension filePath)

/-- The member `std::string::operator[]`: the character at `pos`, the
terminating null character at `pos = size()`, and nothing defined beyond. -/
def charAt (s : Str) (pos : Nat) : Option Char :=
  (s ++ [Char.ofNat 0])[pos]?

/-- The function `FileManager::isHiddenFile`:
`filePath.filename().string().front() == '.'`. The member `front()` is
`operator[](0)`; its precondition `!empty()` is checked only in a build with
library assertions, and otherwise an empty string gives its terminating null
character. The result `none` is a read outside the string. -/
def isHiddenFile (filePath : Str) : Option Bool :=
  (charAt (filename filePath) 0).map (fun c => c == '.')

/-- The function `FileManager::isTextMimeType` is declared in `FileManager.h`
and called by `FileExplorer::explore`, and no source file defines it.
Modelled from the spec: true iff the extension is a member of the fixed
text-extension set, which is the parameter `textExtensions`. -/
def isTextMimeType (textExtensions : List Str) (filePath : Str) : Bool :=
  textExtensions.contains (extension filePath)

/-! ## The file system seen by the walk -/

/-- The entries of one directory in the order the file system enumerates
them. An entry is a regular file, a directory with its own entries, something
that is neither (a socket, a dangling link), or an entry whose status cannot
be read (`noStatus`: `status()` fails on it, as in a directory that may be
listed and not searched). A directory carries whether it can be opened. -/
inductive Entries where
  | nil : Entries
  | file (name : Str) (rest : Entries) : Entries
  | other (name : Str) (rest : Entries) : Entries
  | dir (name : Str) (readable : Bool) (children : Entries) (rest : Entries) : Entries
  | noStatus (name : Str) (rest : Entries) : Entries
  deriving DecidableEq

/-- What `dirPath` names: nothing, something that is not a directory, a
directory that may not be opened, or a directory with its entries. -/
inductive Root where
  | missing : Root
  | notDirectory : Root
  | permissionDenied : Root
  | directory (entries : Entries) : Root
  deriving DecidableEq

/-- The struct `Configuration` of `globals.h`. -/
structure Configuration where
  showBinaryFiles : Bool
  showHiddenFiles : Bool
  deriving DecidableEq

/-- The path of a directory entry, `dir / name` (`path::operator/`): a
separator is inserted unless `dir` is empty or already ends in one. -/
def pathAppend (dir name : Str) : Str :=
  if dir = [] ∨ dir.getLast? = some '/' then dir ++ name else dir ++ '/' :: name

/-- The text of `filesystem_error::what()` in libstdc++, for an error built
from `what_arg`, an `error_code` whose message is `message`, and at most one
path: `filesystem error: `, the `what_arg`, a colon and the message of the
error code, then the path in brackets when there is one. -/
def fsErrorWhat (whatArg message : Str) (path : Option Str) : Str :=
  "filesystem error: ".toList ++ whatArg ++ ": ".toList ++ message ++
    match path with
    | none => []
    | some p => " [".toList ++ p ++ "]".toList

/-- The message of the error code with which a root path fails to open. -/
def Root.message : Root → Str
  | .missing => "No such file or directory".toList
  | .notDirectory => "Not a directory".toList
  | _ => "Permission denied".toList

/-- The macro `SOFTWARE_NAME` of `globals.h`. -/
def SOFTWARE_NAME : Str := "mavu".toList

/-! ## FileManager::getAllFiles -/

/-- The test `(!showHiddenFiles && isHiddenFile(p)) || (!showBinaryFiles &&
hasBinaryExtension(p))` of `getAllFiles`, with the short-circuit evaluation of
`&&`: `isHiddenFile` runs only when `showHiddenFiles` is false. -/
def skipFile (cfg : Configuration) (p : Str) : Option Bool :=
  if cfg.showHiddenFiles then some (!cfg.showBinaryFiles && hasBinaryExtension p)
  else
    match isHiddenFile p with
    | none => none
    | some h => some (h || (!cfg.showBinaryFiles && hasBinaryExtension p))

/-- The test `!showHiddenFiles && isHiddenFile(p)` that makes `getAllFiles`
call `disable_recursion_pending()` on a directory. -/
def pruneDir (cfg : Configuration) (p : Str) : Option Bool :=
  if cfg.showHiddenFiles then some false else isHiddenFile p

/-- How the `for` loop of `getAllFiles` ends, with the vector `files` at that
moment: the iterator reached its end, or `++it` or `is_regular_file` threw a
`filesystem_error` (`what` is its text), or `isHiddenFile` read outside the
string. -/
inductive Loop where
  | finished (files : List Str) : Loop
  | threw (files : List Str) (what : Str) : Loop
  | undefined : Loop
  deriving DecidableEq

/-- The `for` loop of `getAllFiles` over a `recursive_directory_iterator`,
for the entries of directory `dir` that are still to come, with `files` the
vector so far. The iterator yields a directory before its entries (pre-order);
incrementing it past a directory whose recursion is pending opens that
directory, and throws when it cannot be opened (the error of `operator++`
carries no path). The call `is_regular_file(entry)` reads the status of the
entry and throws when it cannot be read. -/
def walk (cfg : Configuration) : Str → Entries → List Str → Loop
  | _, .nil, files => .finished files
  | dir, .file name rest, files =>
    match skipFile cfg (pathAppend dir name) with
    | none => .undefined
    | some true => walk cfg dir rest files
    | some false => walk cfg dir rest (files ++ [pathAppend dir name])
  | dir, .other _ rest, files => walk cfg dir rest files
  | dir, .dir name readable children rest, files =>
    match pruneDir cfg (pathAppend dir name) with
    | none => .undefined
    | some true => walk cfg dir rest files
    | some false =>
      if readable then
        match walk cfg (pathAppend dir name) children files with
        | .finished files' => walk cfg dir rest files'
        | r => r
      else
        .threw files (fsErrorWhat "cannot increment recursive directory iterator".toList
          "Permission denied".toList none)
  | dir, .noStatus name _, files =>
    .threw files (fsErrorWhat "status".toList "Permission denied".toList
      (some (pathAppend dir name)))

/-- The line written to `std::cerr` by the `catch` of `getAllFiles`. -/
def accessError (what dirPath : Str) : Str :=
  SOFTWARE_NAME ++ ": error: ".toList ++ what ++ " while accessing directory \x60".toList
    ++ dirPath ++ "\x60".toList

/-- The function `FileManager::getAllFiles`: the returned vector and the lines
written to `std::cerr`; `none` when the hidden check read outside the string.
Constructing the iterator on a `dirPath` that cannot be opened throws before
the first iteration. -/
def getAllFiles (cfg : Configuration) (dirPath : Str) (root : Root) :
    Option (List Str × List Str) :=
  match root with
  | .directory entries =>
    match walk cfg dirPath entries [] with
    | .finished files => some (files, [])
    | .threw files what => some (files, [accessError what dirPath])
    | .undefined => none
  | r =>
    some ([], [accessError
      (fsErrorWhat "recursive directory iterator cannot open directory".toList r.message
        (some dirPath)) dirPath])

/-! ## Outputs::convertToHex -/

/-- One hexadecimal digit as `std::hex` prints it (lower case). -/
def hexDigit (n : Nat) : Char :=
  if n < 10 then Char.ofNat (48 + n) else Char.ofNat (87 + n)

/-- The function `Outputs::convertToHex`: every `char`, converted to
`unsigned char` (`% 256`), is printed with `std::hex`, `setw(2)` and fill
character `0`, and followed by a space. -/
def convertToHex : Str → Str
  | [] => []
  | c :: content =>
    hexDigit (c.toNat % 256 / 16) :: hexDigit (c.toNat % 256 % 16) :: ' ' :: convertToHex content

/-! ## FileReader::readFile -/

/-- What a `throw` inside `readFile` carries. -/
inductive Exn where
  | filesystem_error (what : Str) : Exn
  | exception (what : Str) : Exn
  deriving DecidableEq

/-- What reading a path gives: `file.is_open()` is false; or the file opens
and the read throws `std::ios_base::failure` with the text `what` (a
directory opens and cannot be read); or the file opens and `bytes` are
read. -/
inductive FileState where
  | cannotOpen : FileState
  | readThrows (what : Str) : FileState
  | content (bytes : Str) : FileState
  deriving DecidableEq

/-- Whether the file opens and is read through. -/
def FileState.readSucceeds : FileState → Bool
  | .content _ => true
  | _ => false

/-- The `try` block of `FileReader::readFile`. The parameter `fs` gives the
state of each path. The `filesystem_error` is built from the path and a
default `error_code`, whose message is `Success`. -/
def readFileTry (fs : Str → FileState) (filePath : Str) : Except Exn Str :=
  match fs filePath with
  | .cannotOpen =>
    .error (.filesystem_error
      (fsErrorWhat "Cannot open file".toList "Success".toList (some filePath)))
  | .readThrows what => .error (.exception what)
  | .content bytes => .ok bytes

/-- The function `FileReader::readFile`: the returned string and the lines
written to `std::cerr`. Both `catch` clauses return a string. -/
def readFile (fs : Str → FileState) (filePath : Str) : Str × List Str :=
  match readFileTry fs filePath with
  | .ok content => (content, [])
  | .error (.filesystem_error what) =>
    (SOFTWARE_NAME ++ ": cannot open file \x60".toList ++ filePath ++ "\x60".toList,
     [SOFTWARE_NAME ++ ": error: ".toList ++ what])
  | .error (.exception what) =>
    (SOFTWARE_NAME ++ ": unknown error while reading file \x60".toList ++ filePath
      ++ "\x60".toList,
     [SOFTWARE_NAME ++ ": error: ".toList ++ what])

/-! ## FileExplorer::explore -/

/-- What `explore` does to the outside, in order: a call of
`Outputs::displayFileContent(baseDir, filePath, content)` or a line on
`std::cerr`. -/
inductive Event where
  | display (baseDir filePath content : Str) : Event
  | cerr (line : Str) : Event
  deriving DecidableEq

/-- The body of the `for` loop of `explore` for one file. `readFile` returns
in every case, and nothing else in the `try` block throws, so the `catch` of
`explore` is never entered. The parameter `isText` is
`FileManager::isTextMimeType`. -/
def exploreFile (isText : Str → Bool) (fs : Str → FileState) (dirPath file : Str) :
    List Event :=
  let r := readFile fs file
  r.2.map Event.cerr ++
    [if hasBinaryExtension file || !isText file then
      Event.display dirPath file (convertToHex r.1)
    else
      Event.display dirPath file r.1]

/-- The `for` loop of `explore` over the vector `files`. -/
def exploreFiles (isText : Str → Bool) (fs : Str → FileState) (dirPath : Str) :
    List Str → List Event
  | [] => []
  | file :: files => exploreFile isText fs dirPath file ++ exploreFiles isText fs dirPath files

/-- The function `FileExplorer::explore`; `none` when `getAllFiles` gave
`none`. -/
def explore (cfg : Configuration) (isText : Str → Bool) (fs : Str → FileState)
    (dirPath : Str) (root : Root) : Option (List Event) :=
  match getAllFiles cfg dirPath root with
  | none => none
  | some (files, errors) => some (errors.map Event.cerr ++ exploreFiles isText fs dirPath files)

/-! ## The directory tree and the inclusion predicate of the spec -/

/-- A hidden entry, in the words of the spec's glossary: its name begins with
a dot. -/
def isHiddenName (name : Str) : Bool :=
  name.head? == some '.'

/-- The names of the entries of one directory. -/
def Entries.names : Entries → List Str
  | .nil => []
  | .file name rest => name :: rest.names
  | .other name rest => name :: rest.names
  | .dir name _ _ rest => name :: rest.names
  | .noStatus name rest => name :: rest.names

/-- A name a directory entry can have: not empty and without separator. -/
def validName (name : Str) : Bool :=
  !name.isEmpty && !name.contains '/'

/-- A tree a file system can hold: every name is valid and no directory has
two entries of the same name. -/
def Entries.wellFormed : Entries → Bool
  | .nil => true
  | .file name rest => validName name && !rest.names.contains name && rest.wellFormed
  | .other name rest => validName name && !rest.names.contains name && rest.wellFormed
  | .dir name _ children rest =>
    validName name && !rest.names.contains name && children.wellFormed && rest.wellFormed
  | .noStatus name rest => validName name && !rest.names.contains name && rest.wellFormed

/-- The regular files of the tree whose root directory is `dir`, in depth-first
order: the path of each, with the names of the directories between the root
and the file, outermost first. An entry without status is not counted: what
it is cannot be told. -/
def regularFiles : Str → Entries → List (Str × List Str)
  | _, .nil => []
  | dir, .file name rest => (pathAppend dir name, []) :: regularFiles dir rest
  | dir, .other _ rest => regularFiles dir rest
  | dir, .dir name _ children rest =>
    (regularFiles (pathAppend dir name) children).map (fun x => (x.1, name :: x.2))
      ++ regularFiles dir rest
  | dir, .noStatus _ rest => regularFiles dir rest

/-- The exclusion of a regular file as the spec words it: `showHidden` is
false and the file is hidden, or `showBinary` is false and it has a binary
extension. -/
def excluded (cfg : Configuration) (p : Str) : Bool :=
  (!cfg.showHiddenFiles && isHiddenFile p == some true)
    || (!cfg.showBinaryFiles && hasBinaryExtension p)

/-- A directory is pruned: `showHidden` is false and its name is hidden. -/
def pruned (cfg : Configuration) (name : Str) : Bool :=
  !cfg.showHiddenFiles && isHiddenName name

/-- The inclusion predicate of the walker for a regular file with the names
of its ancestor directories below the root: no ancestor is pruned and the
file is not excluded. -/
def included (cfg : Configuration) (x : Str × List Str) : Bool :=
  !x.2.any (pruned cfg) && !excluded cfg x.1

/-- The regular files of the tree that satisfy the inclusion predicate, in
depth-first order. -/
def listing (cfg : Configuration) (dir : Str) (entries : Entries) : List Str :=
  ((regularFiles dir entries).filter (included cfg)).map Prod.fst

/-- The part of the tree that is enumerated before the walk fails, that is
before it opens a directory that cannot be read or visits an entry whose
status cannot be read, and `none` when the walk does neither. A pruned
directory is not opened. -/
def Entries.beforeFault (cfg : Configuration) : Entries → Option Entries
  | .nil => none
  | .file name rest => (rest.beforeFault cfg).map (Entries.file name)
  | .other name rest => (rest.beforeFault cfg).map (Entries.other name)
  | .dir name readable children rest =>
    if pruned cfg name then (rest.beforeFault cfg).map (Entries.dir name readable children)
    else if !readable then some .nil
    else
      match children.beforeFault cfg with
      | some children' => some (.dir name true children' .nil)
      | none => (rest.beforeFault cfg).map (Entries.dir name readable children)
  | .noStatus _ _ => some .nil

/-- The paths of the `displayFileContent` calls among the events, in order. -/
def displayed : List Event → List Str
  | [] => []
  | .display _ filePath _ :: es => filePath :: displayed es
  | .cerr _ :: es => displayed es

/-- The lines written to `std::cerr` among the events, in order. -/
def cerrLines : List Event → List Str
  | [] => []
  | .display _ _ _ :: es => cerrLines es
  | .cerr line :: es => line :: cerrLines es

/-! ## Sample inputs -/

/-- A tree with a hidden directory, a nested directory and files of each kind. -/
def sampleTree : Entries :=
  .dir ".git".toList true (.file "config".toList .nil)
    (.dir "src".toList true
      (.file "main.cpp".toList (.file "data.unknownext".toList (.file "logo.png".toList .nil)))
      (.other "sock".toList (.file ".env".toList (.file "notes.txt".toList .nil))))

/-- The file system of the read-isolation scenario: `root/b.txt` cannot be
opened, every other path holds the two bytes `hi`. -/
def secondMissing (p : Str) : FileState :=
  if p = "root/b.txt".toList then .cannotOpen else .content "hi".toList

/-- Three regular files `a.txt`, `b.txt`, `c.txt`. -/
def threeFiles : Entries :=
  .file "a.txt".toList (.file "b.txt".toList (.file "c.txt".toList .nil))

/-- An unreadable directory `a` enumerated before the regular file `b.txt`. -/
def unreadableFirst : Entries :=
  .dir "a".toList false .nil (.file "b.txt".toList .nil)

/-- A tree in which the nested directory `src/gen` cannot be opened. -/
def nestedUnreadable : Entries :=
  .file "a.txt".toList
    (.dir "src".toList true
      (.file "main.cpp".toList (.dir "gen".toList false .nil (.file "util.cpp".toList .nil)))
      (.file "z.txt".toList .nil))

/-- The content `explore` passes to `displayFileContent` for a file whose
read gave `c`, as the spec words the effective binary decision. -/
def rendered (isText : Str → Bool) (file c : Str) : Str :=
  if hasBinaryExtension file = true ∨ isText file = false then convertToHex c else c

/-- The three entries of `binaryExtensions` that have more than one period. -/
def multiSegment : List Str :=
  [".tar.gz".toList, ".tar.bz2".toList, ".tar.xz".toList]

/-- The value of one hexadecimal digit, lower or upper case. -/
def hexValue (c : Char) : Option Nat :=
  if 48 ≤ c.toNat ∧ c.toNat ≤ 57 then some (c.toNat - 48)
  else if 97 ≤ c.toNat ∧ c.toNat ≤ 102 then some (c.toNat - 87)
  else if 65 ≤ c.toNat ∧ c.toNat ≤ 70 then some (c.toNat - 55)
  else none

/-- The decoder of the spec's round trip: the input is read as a sequence of
tokens of two hexadecimal digits, each followed by one space, and every token
gives one byte; anything else is rejected. -/
def hexDecode : Str → Option Str
  | [] => some []
  | hi :: lo :: sp :: rest =>
    if sp = ' ' then
      match hexValue hi, hexValue lo, hexDecode rest with
      | some h, some l, some bytes => some (Char.ofNat (16 * h + l) :: bytes)
      | _, _, _ => none
    else none
  | _ => none

/-- The sixteen lower-case hexadecimal digits. -/
def lowerHexDigits : Str := "0123456789abcdef".toList

/-- The two lower-case digits of a byte value, zero-padded, and a space. -/
def hexToken (b : Nat) : Str :=
  [lowerHexDigits.getD (b / 16) '?', lowerHexDigits.getD (b % 16) '?', ' ']

/-- The paths of all entries of the tree in depth-first pre-order: a
directory, then its entries, then the entries enumerated after it. -/
def preorder : Str → Entries → List Str
  | _, .nil => []
  | dir, .file name rest => pathAppend dir name :: preorder dir rest
  | dir, .other name rest => pathAppend dir name :: preorder dir rest
  | dir, .dir name _ children rest =>
    pathAppend dir name :: (preorder (pathAppend dir name) children ++ preorder dir rest)
  | dir, .noStatus name rest => pathAppend dir name :: preorder dir rest

/-- The entries of `first` followed by those of `second`, in one directory. -/
def Entries.append : Entries → Entries → Entries
  | .nil, second => second
  | .file name rest, second => .file name (rest.append second)
  | .other name rest, second => .other name (rest.append second)
  | .dir name readable children rest, second =>
    .dir name readable children (rest.append second)
  | .noStatus name rest, second => .noStatus name (rest.append second)

/-- The tree of the end-to-end scenarios: `a.txt`, `.secret` and `img.png`. -/
def scenarioTree : Entries :=
  .file "a.txt".toList (.file ".secret".toList (.file "img.png".toList .nil))

/-- The three bytes of `img.png` in the end-to-end scenarios. -/
def pngBytes : Str := [Char.ofNat 137, 'P', 'N']

/-- The contents of the files of the end-to-end scenarios. -/
def scenarioFs (p : Str) : FileState :=
  if p = "root/a.txt".toList then .content "hi".toList
  else if p = "root/.secret".toList then .content ".txt hidden".toList
  else if p = "root/img.png".toList then .content pngBytes
  else .cannotOpen

/-- A hidden directory that cannot be opened, enumerated before `b.txt`. -/
def hiddenUnreadable : Entries :=
  .dir ".cache".toList false .nil (.file "b.txt".toList .nil)

/-- A regular file, a directory that cannot be opened, and a regular file
enumerated after it. -/
def lockedBetween : Entries :=
  .file "a.txt".toList (.dir "locked".toList false .nil (.file "b.txt".toList .nil))

/-- The path `root/d` opens and reading it throws (it is a directory); any
other path holds the two bytes `hi`. -/
def readThrowsAt (p : Str) : FileState :=
  if p = "root/d".toList then
    .readThrows "basic_filebuf::underflow error reading the file: Is a directory".toList
  else .content "hi".toList

/-- A directory `d` that can be listed and not searched: it opens, and the
status of its entry `x` cannot be read. -/
def unsearchable : Entries :=
  .file "a.txt".toList
    (.dir "d".toList true (.noStatus "x".toList .nil) (.file "b.txt".toList .nil))

theorem rfind_none (c : Char) (s : Str) : rfind c s = none ↔ c ∉ s := by
  induction s with
  | nil => simp [rfind]
  | cons x xs ih =>
    cases h : rfind c xs with
    | none =>
      have hx := ih.mp h
      by_cases hxc : x = c
      · simp [rfind, h, hxc]
      · simp [rfind, h, hxc, hx, Ne.symm hxc]
    | some i =>
      have hx : c ∈ xs := by
        by_contra hc
        rw [ih.mpr hc] at h
        cases h
      simp [rfind, h, hx]

theorem rfind_append (c : Char) (a b : Str) (hb : c ∉ b) :
    rfind c (a ++ c :: b) = some a.length := by
  induction a with
  | nil => simp [rfind, (rfind_none c b).mpr hb]
  | cons x xs ih => simp [rfind, ih]

theorem rfind_some (c : Char) (s : Str) (i : Nat) (h : rfind c s = some i) :
    ∃ a b, s = a ++ c :: b ∧ c ∉ b ∧ a.length = i := by
  induction s generalizing i with
  | nil => simp [rfind] at h
  | cons x xs ih =>
    cases hr : rfind c xs with
    | none =>
      by_cases hxc : x = c
      · simp [rfind, hr, hxc] at h
        exact ⟨[], xs, by simp [hxc], (rfind_none c xs).mp hr, by simp [h]⟩
      · simp [rfind, hr, hxc] at h
    | some j =>
      simp [rfind, hr] at h
      obtain ⟨a, b, hs, hb, hl⟩ := ih j hr
      exact ⟨x :: a, b, by simp [hs], hb, by simp [hl, h]⟩

theorem filename_no_sep (p : Str) : '/' ∉ filename p := by
  unfold filename
  intro h
  rw [List.mem_reverse] at h
  have := List.mem_takeWhile_imp h
  simp at this

theorem filename_append (dir name : Str) (h : '/' ∉ name) :
    filename (dir ++ '/' :: name) = name := by
  unfold filename
  rw [List.reverse_append, List.reverse_cons, List.append_assoc]
  rw [List.takeWhile_append_of_pos]
  · simp
  · intro c hc
    rw [List.mem_reverse] at hc
    have : c ≠ '/' := fun e => h (e ▸ hc)
    simpa using this

theorem filename_self (name : Str) (h : '/' ∉ name) : filename name = name := by
  unfold filename
  rw [List.takeWhile_eq_self_iff.mpr]
  · simp
  · intro c hc
    rw [List.mem_reverse] at hc
    have : c ≠ '/' := fun e => h (e ▸ hc)
    simpa using this

/-- The extension of a path, once the last period of its file name is
located: empty when that period comes first or the name is `..`. -/
theorem extension_of_split (p stem suffix : Str) (hf : filename p = stem ++ '.' :: suffix)
    (hs : '.' ∉ suffix) :
    extension p =
      if stem = [] ∨ (stem = ['.'] ∧ suffix = []) then [] else '.' :: suffix := by
  unfold extension
  simp only [hf, rfind_append '.' stem suffix hs]
  cases stem with
  | nil => simp
  | cons s ss =>
    by_cases h2 : (s :: ss = ['.'] ∧ suffix = [])
    · obtain ⟨h2a, h2b⟩ := h2
      simp [h2a, h2b]
    · have h3 : ¬ (s :: ss ++ '.' :: suffix = ['.'] ∨ s :: ss ++ '.' :: suffix = ['.', '.']) := by
        rintro (h | h)
        · simp at h
        · simp at h
          obtain ⟨rfl, h⟩ := h
          cases ss with
          | nil => simp at h; exact h2 ⟨rfl, h⟩
          | cons t ts => simp at h
      rw [if_neg h3]
      have h4 : ¬ (s :: ss = [] ∨ (s :: ss = ['.'] ∧ suffix = [])) := by
        rintro (h | h)
        · cases h
        · exact h2 h
      rw [if_neg h4]
      simp

theorem extension_no_period (p : Str) (h : '.' ∉ filename p) : extension p = [] := by
  unfold extension
  simp only [(rfind_none '.' (filename p)).mpr h]
  split <;> rfl

theorem extension_shape (p : Str) :
    extension p = [] ∨ ∃ suffix, '.' ∉ suffix ∧ extension p = '.' :: suffix := by
  by_cases h : '.' ∈ filename p
  · cases hr : rfind '.' (filename p) with
    | none => exact absurd h ((rfind_none _ _).mp hr)
    | some i =>
      obtain ⟨a, b, hs, hb, _⟩ := rfind_some _ _ _ hr
      rw [extension_of_split p a b hs hb]
      split
      · exact Or.inl rfl
      · exact Or.inr ⟨b, hb, rfl⟩
  · exact Or.inl (extension_no_period p h)

theorem validName_iff (n : Str) : validName n = true ↔ n ≠ [] ∧ '/' ∉ n := by
  cases n <;> simp [validName]

theorem pathAppend_base (d n : Str) : pathAppend d n = pathAppend d [] ++ n := by
  unfold pathAppend
  split <;> simp

theorem filename_pathAppend (d n : Str) (h : '/' ∉ n) : filename (pathAppend d n) = n := by
  unfold pathAppend
  split
  · rename_i hc
    rcases hc with hc | hc
    · subst hc
      simpa using filename_self n h
    · obtain ⟨d', rfl⟩ : ∃ d', d = d' ++ ['/'] := by
        rcases List.eq_nil_or_concat d with hd | ⟨l, b, hd⟩
        · subst hd; simp at hc
        · subst hd
          simp at hc
          exact ⟨l, by simp [hc]⟩
      simpa using filename_append d' n h
  · exact filename_append d n h

theorem isHiddenFile_pathAppend (d n : Str) (h : validName n = true) :
    isHiddenFile (pathAppend d n) = some (isHiddenName n) := by
  obtain ⟨h1, h2⟩ := (validName_iff n).mp h
  unfold isHiddenFile charAt
  rw [filename_pathAppend d n h2]
  cases n with
  | nil => exact absurd rfl h1
  | cons c cs => simp [isHiddenName]

theorem skipFile_pathAppend (cfg : Configuration) (d n : Str) (h : validName n = true) :
    skipFile cfg (pathAppend d n) = some (excluded cfg (pathAppend d n)) := by
  unfold skipFile excluded
  rw [isHiddenFile_pathAppend d n h]
  cases cfg.showHiddenFiles <;> simp

theorem pruneDir_pathAppend (cfg : Configuration) (d n : Str) (h : validName n = true) :
    pruneDir cfg (pathAppend d n) = some (pruned cfg n) := by
  unfold pruneDir pruned
  rw [isHiddenFile_pathAppend d n h]
  cases cfg.showHiddenFiles <;> simp

/-! ## The walk and the listing -/

theorem listing_nil (cfg : Configuration) (d : Str) : listing cfg d .nil = [] := rfl

theorem listing_file (cfg : Configuration) (d n : Str) (rest : Entries) :
    listing cfg d (.file n rest) =
      if excluded cfg (pathAppend d n) then listing cfg d rest
      else pathAppend d n :: listing cfg d rest := by
  unfold listing
  cases he : excluded cfg (pathAppend d n) <;>
    simp [regularFiles, List.filter_cons, included, he]

theorem listing_other (cfg : Configuration) (d n : Str) (rest : Entries) :
    listing cfg d (.other n rest) = listing cfg d rest := rfl

theorem listing_noStatus (cfg : Configuration) (d n : Str) (rest : Entries) :
    listing cfg d (.noStatus n rest) = listing cfg d rest := rfl

theorem listing_dir (cfg : Configuration) (d n : Str) (r : Bool) (ch rest : Entries) :
    listing cfg d (.dir n r ch rest) =
      if pruned cfg n then listing cfg d rest
      else listing cfg (pathAppend d n) ch ++ listing cfg d rest := by
  unfold listing
  simp only [regularFiles, List.filter_append, List.map_append, List.filter_map, List.map_map]
  have hfst : (Prod.fst ∘ fun x : Str × List Str => (x.1, n :: x.2)) = Prod.fst := rfl
  rw [hfst]
  cases hp : pruned cfg n
  · simp only [Bool.false_eq_true, if_false]
    congr 2
    apply List.filter_congr
    intro x _
    simp [included, hp]
  · simp only [if_true]
    have : List.filter (included cfg ∘ fun x : Str × List Str => (x.1, n :: x.2))
        (regularFiles (pathAppend d n) ch) = [] := by
      rw [List.filter_eq_nil_iff]
      intro x _
      simp [included, hp]
    rw [this]
    simp

/-- The walk of a well-formed tree that meets no failure ends normally and
appends the listing. -/
theorem walk_finished (cfg : Configuration) (T : Entries) :
    ∀ (d : Str) (acc : List Str), T.wellFormed = true → T.beforeFault cfg = none →
      walk cfg d T acc = .finished (acc ++ listing cfg d T) := by
  induction T with
  | nil => intro d acc _ _; simp [walk, listing_nil]
  | file n rest ih =>
    intro d acc hwf hbf
    simp only [Entries.wellFormed, Bool.and_eq_true] at hwf
    obtain ⟨⟨hv, _⟩, hrest⟩ := hwf
    simp only [Entries.beforeFault, Option.map_eq_none'] at hbf
    rw [walk, skipFile_pathAppend cfg d n hv, listing_file]
    cases he : excluded cfg (pathAppend d n)
    · simp [ih d _ hrest hbf]
    · simp [ih d _ hrest hbf]
  | other n rest ih =>
    intro d acc hwf hbf
    simp only [Entries.wellFormed, Bool.and_eq_true] at hwf
    simp only [Entries.beforeFault, Option.map_eq_none'] at hbf
    rw [walk, listing_other, ih d _ hwf.2 hbf]
  | dir n r ch rest ihc ihr =>
    intro d acc hwf hbf
    simp only [Entries.wellFormed, Bool.and_eq_true] at hwf
    obtain ⟨⟨⟨hv, _⟩, hch⟩, hrest⟩ := hwf
    rw [walk, pruneDir_pathAppend cfg d n hv, listing_dir]
    simp only [Entries.beforeFault] at hbf
    cases hp : pruned cfg n
    · simp only [hp, Bool.false_eq_true, if_false] at hbf ⊢
      cases r with
      | false => simp at hbf
      | true =>
        simp only [Bool.not_true, Bool.false_eq_true, if_false] at hbf
        cases hc : ch.beforeFault cfg with
        | some c => simp [hc] at hbf
        | none =>
          simp only [hc, Option.map_eq_none'] at hbf
          simp [ihc (pathAppend d n) acc hch hc, ihr d _ hrest hbf]
    · simp only [hp, if_true, Option.map_eq_none'] at hbf ⊢
      exact ihr d acc hrest hbf
  | noStatus n rest _ =>
    intro d acc _ hbf
    simp [Entries.beforeFault] at hbf

/-- The walk of a well-formed tree that opens an unreadable directory, or
visits an entry whose status cannot be read, throws there, with exactly the
listing of what was enumerated before. -/
theorem walk_threw (cfg : Configuration) (T : Entries) :
    ∀ (d : Str) (acc : List Str) (T' : Entries), T.wellFormed = true →
      T.beforeFault cfg = some T' →
      ∃ w, walk cfg d T acc = .threw (acc ++ listing cfg d T') w := by
  induction T with
  | nil => intro d acc T' _ h; simp [Entries.beforeFault] at h
  | file n rest ih =>
    intro d acc T' hwf hbf
    simp only [Entries.wellFormed, Bool.and_eq_true] at hwf
    obtain ⟨⟨hv, _⟩, hrest⟩ := hwf
    simp only [Entries.beforeFault, Option.map_eq_some'] at hbf
    obtain ⟨R, hR, rfl⟩ := hbf
    rw [walk, skipFile_pathAppend cfg d n hv, listing_file]
    cases he : excluded cfg (pathAppend d n)
    · obtain ⟨w, hw⟩ := ih d (acc ++ [pathAppend d n]) R hrest hR
      exact ⟨w, by simp [hw]⟩
    · obtain ⟨w, hw⟩ := ih d acc R hrest hR
      exact ⟨w, by simp [hw]⟩
  | other n rest ih =>
    intro d acc T' hwf hbf
    simp only [Entries.wellFormed, Bool.and_eq_true] at hwf
    simp only [Entries.beforeFault, Option.map_eq_some'] at hbf
    obtain ⟨R, hR, rfl⟩ := hbf
    rw [walk, listing_other]
    exact ih d acc R hwf.2 hR
  | dir n r ch rest ihc ihr =>
    intro d acc T' hwf hbf
    simp only [Entries.wellFormed, Bool.and_eq_true] at hwf
    obtain ⟨⟨⟨hv, _⟩, hch⟩, hrest⟩ := hwf
    rw [walk, pruneDir_pathAppend cfg d n hv]
    simp only [Entries.beforeFault] at hbf
    cases hp : pruned cfg n
    · simp only [hp, Bool.false_eq_true, if_false] at hbf ⊢
      cases r with
      | false =>
        simp only [Bool.not_false, if_true, Option.some.injEq] at hbf
        subst hbf
        exact ⟨_, by simp only [listing_nil, List.append_nil]; rfl⟩
      | true =>
        simp only [Bool.not_true, Bool.false_eq_true, if_false] at hbf
        cases hc : ch.beforeFault cfg with
        | some c =>
          simp only [hc, Option.some.injEq] at hbf
          subst hbf
          obtain ⟨w, hw⟩ := ihc (pathAppend d n) acc c hch hc
          exact ⟨w, by simp [hw, listing_dir, hp, listing_nil]⟩
        | none =>
          simp only [hc, Option.map_eq_some'] at hbf
          obtain ⟨R, hR, rfl⟩ := hbf
          obtain ⟨w, hw⟩ := ihr d (acc ++ listing cfg (pathAppend d n) ch) R hrest hR
          exact ⟨w, by simp [walk_finished cfg ch _ acc hch hc, hw, listing_dir, hp]⟩
    · simp only [hp, if_true, Option.map_eq_some'] at hbf ⊢
      obtain ⟨R, hR, rfl⟩ := hbf
      obtain ⟨w, hw⟩ := ihr d acc R hrest hR
      exact ⟨w, by simp [hw, listing_dir, hp]⟩
  | noStatus n rest _ =>
    intro d acc T' _ hbf
    simp only [Entries.beforeFault, Option.some.injEq] at hbf
    subst hbf
    rw [walk, listing_nil, List.append_nil]
    exact ⟨_, rfl⟩

theorem pathAppend_nested (d n m : Str) (h : validName n = true) :
    pathAppend (pathAppend d n) m = pathAppend d n ++ '/' :: m := by
  obtain ⟨h1, h2⟩ := (validName_iff n).mp h
  have hne : pathAppend d n ≠ [] := by
    rw [pathAppend_base]; simp [h1]
  have hlast : (pathAppend d n).getLast? ≠ some '/' := by
    rw [pathAppend_base, List.getLast?_append_of_ne_nil _ h1]
    intro hc
    exact h2 (List.mem_of_getLast?_eq_some hc)
  generalize pathAppend d n = q at hne hlast
  unfold pathAppend
  rw [if_neg]
  rintro (hc | hc)
  · exact hne hc
  · exact hlast hc

theorem takeWhile_name (n r : Str) (hn : '/' ∉ n) (hr : r = [] ∨ r.head? = some '/') :
    (n ++ r).takeWhile (fun c => c != '/') = n := by
  induction n with
  | nil =>
    rcases hr with rfl | hr
    · rfl
    · cases r with
      | nil => simp at hr
      | cons c cs =>
        simp at hr
        simp [hr]
  | cons x xs ih =>
    have hx : x ≠ '/' := fun e => hn (by simp [e])
    have hxs : '/' ∉ xs := fun e => hn (by simp [e])
    simp [List.takeWhile_cons, hx, ih hxs]

theorem pathAppend_inj (d n₁ n₂ r₁ r₂ : Str) (h₁ : validName n₁ = true)
    (h₂ : validName n₂ = true) (hr₁ : r₁ = [] ∨ r₁.head? = some '/')
    (hr₂ : r₂ = [] ∨ r₂.head? = some '/')
    (h : pathAppend d n₁ ++ r₁ = pathAppend d n₂ ++ r₂) : n₁ = n₂ := by
  rw [pathAppend_base d n₁, pathAppend_base d n₂, List.append_assoc, List.append_assoc] at h
  have h' := List.append_cancel_left h
  have e₁ := takeWhile_name n₁ r₁ ((validName_iff n₁).mp h₁).2 hr₁
  have e₂ := takeWhile_name n₂ r₂ ((validName_iff n₂).mp h₂).2 hr₂
  rw [← e₁, ← e₂, h']

theorem names_valid (T : Entries) (h : T.wellFormed = true) :
    ∀ n ∈ T.names, validName n = true := by
  induction T with
  | nil => simp [Entries.names]
  | file n rest ih =>
    simp only [Entries.wellFormed, Bool.and_eq_true] at h
    simp only [Entries.names, List.mem_cons, forall_eq_or_imp]
    exact ⟨h.1.1, ih h.2⟩
  | other n rest ih =>
    simp only [Entries.wellFormed, Bool.and_eq_true] at h
    simp only [Entries.names, List.mem_cons, forall_eq_or_imp]
    exact ⟨h.1.1, ih h.2⟩
  | dir n r ch rest _ ih =>
    simp only [Entries.wellFormed, Bool.and_eq_true] at h
    simp only [Entries.names, List.mem_cons, forall_eq_or_imp]
    exact ⟨h.1.1.1, ih h.2⟩
  | noStatus n rest ih =>
    simp only [Entries.wellFormed, Bool.and_eq_true] at h
    simp only [Entries.names, List.mem_cons, forall_eq_or_imp]
    exact ⟨h.1.1, ih h.2⟩

/-- Every regular file of a well-formed tree has a path that starts with the
path of one entry of the root directory, followed by nothing or by `/`. -/
theorem regularFiles_shape (T : Entries) :
    ∀ (d : Str), T.wellFormed = true → ∀ x ∈ regularFiles d T,
      ∃ n ∈ T.names, ∃ r, x.1 = pathAppend d n ++ r ∧ (r = [] ∨ r.head? = some '/') := by
  induction T with
  | nil => intro d _ x hx; simp [regularFiles] at hx
  | file n rest ih =>
    intro d h x hx
    simp only [Entries.wellFormed, Bool.and_eq_true] at h
    simp only [regularFiles, List.mem_cons] at hx
    rcases hx with rfl | hx
    · exact ⟨n, by simp [Entries.names], [], by simp, Or.inl rfl⟩
    · obtain ⟨m, hm, r, e, hr⟩ := ih d h.2 x hx
      exact ⟨m, by simp [Entries.names, hm], r, e, hr⟩
  | other n rest ih =>
    intro d h x hx
    simp only [Entries.wellFormed, Bool.and_eq_true] at h
    simp only [regularFiles] at hx
    obtain ⟨m, hm, r, e, hr⟩ := ih d h.2 x hx
    exact ⟨m, by simp [Entries.names, hm], r, e, hr⟩
  | dir n rd ch rest ihc ihr =>
    intro d h x hx
    simp only [Entries.wellFormed, Bool.and_eq_true] at h
    obtain ⟨⟨⟨hv, _⟩, hch⟩, hrest⟩ := h
    simp only [regularFiles, List.mem_append, List.mem_map] at hx
    rcases hx with ⟨y, hy, rfl⟩ | hx
    · obtain ⟨m, _, r, e, _⟩ := ihc (pathAppend d n) hch y hy
      refine ⟨n, by simp [Entries.names], '/' :: m ++ r, ?_, Or.inr (by simp)⟩
      simp only [e, pathAppend_nested d n m hv]
      simp
    · obtain ⟨m, hm, r, e, hr⟩ := ihr d hrest x hx
      exact ⟨m, by simp [Entries.names, hm], r, e, hr⟩
  | noStatus n rest ih =>
    intro d h x hx
    simp only [Entries.wellFormed, Bool.and_eq_true] at h
    simp only [regularFiles] at hx
    obtain ⟨m, hm, r, e, hr⟩ := ih d h.2 x hx
    exact ⟨m, by simp [Entries.names, hm], r, e, hr⟩

/-- In a well-formed tree no two regular files have the same path. -/
theorem regularFiles_nodup (T : Entries) :
    ∀ (d : Str), T.wellFormed = true → ((regularFiles d T).map Prod.fst).Nodup := by
  induction T with
  | nil => intro d _; simp [regularFiles]
  | file n rest ih =>
    intro d h
    have hnames := names_valid _ h
    simp only [Entries.wellFormed, Bool.and_eq_true] at h
    obtain ⟨⟨hv, hnot⟩, hrest⟩ := h
    simp only [regularFiles, List.map_cons, List.nodup_cons]
    refine ⟨?_, ih d hrest⟩
    intro hmem
    obtain ⟨x, hx, hx1⟩ := List.mem_map.mp hmem
    obtain ⟨m, hm, r, e, hr⟩ := regularFiles_shape rest d hrest x hx
    have hmv := names_valid rest hrest m hm
    have : n = m := pathAppend_inj d n m [] r hv hmv (Or.inl rfl) hr (by simp [← e, hx1])
    subst this
    simp [hm] at hnot
  | other n rest ih =>
    intro d h
    simp only [Entries.wellFormed, Bool.and_eq_true] at h
    simpa [regularFiles] using ih d h.2
  | dir n rd ch rest ihc ihr =>
    intro d h
    simp only [Entries.wellFormed, Bool.and_eq_true] at h
    obtain ⟨⟨⟨hv, hnot⟩, hch⟩, hrest⟩ := h
    simp only [regularFiles, List.map_append, List.map_map]
    have hfst : (Prod.fst ∘ fun x : Str × List Str => (x.1, n :: x.2)) = Prod.fst := rfl
    rw [hfst, List.nodup_append]
    refine ⟨ihc _ hch, ihr d hrest, ?_⟩
    intro p hp1 hp2
    obtain ⟨x, hx, hx1⟩ := List.mem_map.mp hp1
    obtain ⟨y, hy, hy1⟩ := List.mem_map.mp hp2
    obtain ⟨m, _, r, e, _⟩ := regularFiles_shape ch (pathAppend d n) hch x hx
    obtain ⟨m', hm', r', e', hr'⟩ := regularFiles_shape rest d hrest y hy
    have hmv := names_valid rest hrest m' hm'
    rw [pathAppend_nested d n m hv] at e
    have : n = m' := pathAppend_inj d n m' ('/' :: m ++ r) r' hv hmv (Or.inr (by simp)) hr'
      (by rw [← e', hy1, ← hx1, e]; simp)
    subst this
    simp [hm'] at hnot
  | noStatus n rest ih =>
    intro d h
    simp only [Entries.wellFormed, Bool.and_eq_true] at h
    simpa [regularFiles] using ih d h.2

theorem listing_sublist (cfg : Configuration) (d : Str) (T : Entries) :
    (listing cfg d T).Sublist ((regularFiles d T).map Prod.fst) :=
  List.Sublist.map _ (List.filter_sublist _)

theorem listing_nodup (cfg : Configuration) (d : Str) (T : Entries)
    (h : T.wellFormed = true) : (listing cfg d T).Nodup :=
  (regularFiles_nodup T d h).sublist (listing_sublist cfg d T)

theorem mem_listing (cfg : Configuration) (d : Str) (T : Entries) (p : Str) :
    p ∈ listing cfg d T ↔ ∃ anc, (p, anc) ∈ regularFiles d T ∧ included cfg (p, anc) = true := by
  unfold listing
  simp only [List.mem_map, List.mem_filter]
  constructor
  · rintro ⟨⟨q, a⟩, ⟨h1, h2⟩, rfl⟩
    exact ⟨a, h1, h2⟩
  · rintro ⟨a, h1, h2⟩
    exact ⟨(p, a), ⟨h1, h2⟩, rfl⟩

/-- In a well-formed tree a path determines the ancestors of the file. -/
theorem regularFiles_unique (T : Entries) (d : Str) (h : T.wellFormed = true) (p : Str)
    (a b : List Str) (ha : (p, a) ∈ regularFiles d T) (hb : (p, b) ∈ regularFiles d T) :
    a = b := by
  have := List.inj_on_of_nodup_map (regularFiles_nodup T d h) ha hb rfl
  exact (Prod.mk.inj this).2

theorem regularFiles_beforeFault (cfg : Configuration) (T : Entries) :
    ∀ (d : Str) (T' : Entries), T.beforeFault cfg = some T' →
      regularFiles d T' <+: regularFiles d T := by
  induction T with
  | nil => intro d T' h; simp [Entries.beforeFault] at h
  | file n rest ih =>
    intro d T' h
    simp only [Entries.beforeFault, Option.map_eq_some'] at h
    obtain ⟨R, hR, rfl⟩ := h
    simpa [regularFiles, List.cons_prefix_cons] using ih d R hR
  | other n rest ih =>
    intro d T' h
    simp only [Entries.beforeFault, Option.map_eq_some'] at h
    obtain ⟨R, hR, rfl⟩ := h
    simpa [regularFiles] using ih d R hR
  | dir n r ch rest ihc ihr =>
    intro d T' h
    simp only [Entries.beforeFault] at h
    split at h
    · simp only [Option.map_eq_some'] at h
      obtain ⟨R, hR, rfl⟩ := h
      simp only [regularFiles]
      exact (List.prefix_append_right_inj _).mpr (ihr d R hR)
    · split at h
      · simp only [Option.some.injEq] at h
        subst h
        simp [regularFiles]
      · cases hc : ch.beforeFault cfg with
        | some c =>
          simp only [hc, Option.some.injEq] at h
          subst h
          simp only [regularFiles, List.append_nil]
          exact ((ihc (pathAppend d n) c hc).map _).trans (List.prefix_append _ _)
        | none =>
          simp only [hc, Option.map_eq_some'] at h
          obtain ⟨R, hR, rfl⟩ := h
          simp only [regularFiles]
          exact (List.prefix_append_right_inj _).mpr (ihr d R hR)
  | noStatus n rest _ =>
    intro d T' h
    simp only [Entries.beforeFault, Option.some.injEq] at h
    subst h
    simp [regularFiles]

theorem listing_beforeFault (cfg : Configuration) (T T' : Entries) (d : Str)
    (h : T.beforeFault cfg = some T') : listing cfg d T' <+: listing cfg d T :=
  ((regularFiles_beforeFault cfg T d T' h).filter _).map _

/-! ## The explorer -/

theorem getAllFiles_finished (cfg : Configuration) (d : Str) (T : Entries)
    (hwf : T.wellFormed = true) (h : T.beforeFault cfg = none) :
    getAllFiles cfg d (.directory T) = some (listing cfg d T, []) := by
  simp [getAllFiles, walk_finished cfg T d [] hwf h]

theorem getAllFiles_threw (cfg : Configuration) (d : Str) (T T' : Entries)
    (hwf : T.wellFormed = true) (h : T.beforeFault cfg = some T') :
    ∃ line, getAllFiles cfg d (.directory T) = some (listing cfg d T', [line]) := by
  obtain ⟨w, hw⟩ := walk_threw cfg T d [] T' hwf h
  exact ⟨accessError w d, by simp [getAllFiles, hw]⟩

/-- Whatever fails, the vector returned for a well-formed tree is a prefix of
its listing. -/
theorem getAllFiles_prefix (cfg : Configuration) (d : Str) (T : Entries)
    (hwf : T.wellFormed = true) :
    ∃ files errs, getAllFiles cfg d (.directory T) = some (files, errs) ∧
      files <+: listing cfg d T := by
  cases h : T.beforeFault cfg with
  | none => exact ⟨_, _, getAllFiles_finished cfg d T hwf h, List.prefix_refl _⟩
  | some T' =>
    obtain ⟨line, hl⟩ := getAllFiles_threw cfg d T T' hwf h
    exact ⟨_, _, hl, listing_beforeFault cfg T T' d h⟩

theorem displayed_append (a b : List Event) : displayed (a ++ b) = displayed a ++ displayed b := by
  induction a with
  | nil => rfl
  | cons e es ih => cases e <;> simp [displayed, ih]

theorem displayed_cerr (l : List Str) : displayed (l.map Event.cerr) = [] := by
  induction l with
  | nil => rfl
  | cons e es ih => simp [displayed, ih]

theorem displayed_exploreFile (isText : Str → Bool) (fs : Str → FileState) (d f : Str) :
    displayed (exploreFile isText fs d f) = [f] := by
  unfold exploreFile
  simp only [displayed_append, displayed_cerr, List.nil_append]
  split <;> rfl

theorem displayed_exploreFiles (isText : Str → Bool) (fs : Str → FileState) (d : Str)
    (files : List Str) : displayed (exploreFiles isText fs d files) = files := by
  induction files with
  | nil => rfl
  | cons f fs' ih => simp [exploreFiles, displayed_append, displayed_exploreFile, ih]

theorem readFile_ok (fs : Str → FileState) (f c : Str) (h : fs f = .content c) :
    readFile fs f = (c, []) := by
  simp [readFile, readFileTry, h]

/-- The content with which `explore` calls `displayFileContent` for a file. -/
theorem mem_exploreFiles (isText : Str → Bool) (fs : Str → FileState) (d : Str)
    (files : List Str) (b f x : Str) :
    Event.display b f x ∈ exploreFiles isText fs d files ↔
      f ∈ files ∧ b = d ∧
        x = if hasBinaryExtension f || !isText f then convertToHex (readFile fs f).1
            else (readFile fs f).1 := by
  induction files with
  | nil => simp [exploreFiles]
  | cons g gs ih =>
    simp only [exploreFiles, List.mem_append, ih, List.mem_cons]
    have hg : Event.display b f x ∈ exploreFile isText fs d g ↔
        f = g ∧ b = d ∧
          x = if hasBinaryExtension f || !isText f then convertToHex (readFile fs f).1
              else (readFile fs f).1 := by
      unfold exploreFile
      simp only [List.mem_append, List.mem_map, List.mem_singleton, reduceCtorEq, and_false,
        exists_false, false_or]
      constructor
      · intro h
        split at h
        · rename_i hc
          injection h with h1 h2 h3
          subst h2
          exact ⟨rfl, h1, by rw [if_pos hc]; exact h3⟩
        · rename_i hc
          injection h with h1 h2 h3
          subst h2
          exact ⟨rfl, h1, by rw [if_neg hc]; exact h3⟩
      · rintro ⟨rfl, rfl, rfl⟩
        split <;> rfl
    rw [hg]
    tauto

theorem count_eq_one (l : List Str) (f : Str) (hnd : l.Nodup) (hf : f ∈ l) : l.count f = 1 := by
  induction l with
  | nil => cases hf
  | cons x xs ih =>
    obtain ⟨hx, hxs⟩ := List.nodup_cons.mp hnd
    by_cases e : x = f
    · subst e
      simp [List.count_cons, List.count_eq_zero_of_not_mem hx]
    · have hf' : f ∈ xs := by
        rcases List.mem_cons.mp hf with h | h
        · exact absurd h.symm e
        · exact h
      simp [List.count_cons, e, ih hxs hf']

theorem length_convertToHex (c : Str) : (convertToHex c).length = 3 * c.length := by
  induction c with
  | nil => rfl
  | cons x xs ih => simp [convertToHex, ih]; omega

theorem convertToHex_ne (c : Str) (h : c ≠ []) : convertToHex c ≠ c := by
  intro e
  have := length_convertToHex c
  rw [e] at this
  have : c.length = 0 := by omega
  exact h (List.length_eq_zero.mp this)

/-! ## The properties of the spec -/

/-- C1, counterexample: the directory `locked` cannot be opened and is
enumerated between `a.txt` and `b.txt`. The regular file `root/b.txt` has no
ancestor directory below the root, is not hidden and has no binary extension,
and `getAllFiles` returns `root/a.txt` alone, with one error line. -/
theorem getAllFiles_exact_counterexample :
    ("root/b.txt".toList, []) ∈ regularFiles "root".toList lockedBetween ∧
    isHiddenFile "root/b.txt".toList = some false ∧
    hasBinaryExtension "root/b.txt".toList = false ∧
    getAllFiles ⟨false, false⟩ "root".toList (.directory lockedBetween) =
      some (["root/a.txt".toList], ["mavu: error: filesystem error: cannot increment recursive directory iterator: Permission denied while accessing directory \x60root\x60".toList]) := by
  decide

/-- C1, amended: for every well-formed tree and every policy under which the
walk meets no failure (it opens no directory that cannot be read and visits
no entry whose status cannot be read; a pruned directory is not opened),
`getAllFiles` returns, without error, exactly the regular files of the tree
that have no pruned ancestor directory below the root and are not excluded by
`(!showHidden && isHiddenFile) || (!showBinary && hasBinaryExtension)`: the
result is the depth-first list of those files, it has no duplicates, and a
path is in it iff it is such a regular file. -/
theorem getAllFiles_exact (cfg : Configuration) (dirPath : Str) (T : Entries)
    (hwf : T.wellFormed = true) (hf : T.beforeFault cfg = none) :
    getAllFiles cfg dirPath (.directory T) = some (listing cfg dirPath T, []) ∧
    (listing cfg dirPath T).Nodup ∧
    ∀ p, p ∈ listing cfg dirPath T ↔
      ∃ anc, (p, anc) ∈ regularFiles dirPath T ∧
        (cfg.showHiddenFiles = false → ∀ a ∈ anc, isHiddenName a = false) ∧
        ¬ ((cfg.showHiddenFiles = false ∧ isHiddenFile p = some true) ∨
           (cfg.showBinaryFiles = false ∧ hasBinaryExtension p = true)) := by
  refine ⟨getAllFiles_finished cfg dirPath T hwf hf,
    listing_nodup cfg dirPath T hwf, ?_⟩
  intro p
  rw [mem_listing]
  apply exists_congr
  intro anc
  apply and_congr_right
  intro _
  simp only [included, excluded, pruned, Bool.and_eq_true, Bool.not_eq_true', List.any_eq_false,
    Bool.or_eq_false_iff, Bool.and_eq_false_imp, Bool.not_eq_true, beq_eq_false_iff_ne, ne_eq,
    not_or, not_and, Bool.not_eq_false, beq_iff_eq]
  constructor
  · rintro ⟨h1, h2, h3⟩
    refine ⟨fun hs a ha => ?_, h2, ?_⟩
    · have := h1 a ha
      cases hh : isHiddenName a
      · rfl
      · simp [hs, hh] at this
    · intro hb
      cases hx : hasBinaryExtension p
      · simp
      · simp [hb, hx] at h3
  · rintro ⟨h1, h2, h3⟩
    refine ⟨fun a ha => ?_, h2, ?_⟩
    · cases hs : cfg.showHiddenFiles
      · simp [h1 hs a ha]
      · simp
    · cases hb : cfg.showBinaryFiles
      · simpa using h3 hb
      · simp

/-- Witness of the amended C1 under the default policy: on `sampleTree`, and
on `hiddenUnreadable`, whose unreadable directory `.cache` is pruned and so
never opened. -/
theorem getAllFiles_exact_witness :
    sampleTree.wellFormed = true ∧ sampleTree.beforeFault ⟨false, false⟩ = none ∧
    getAllFiles ⟨false, false⟩ "root".toList (.directory sampleTree) =
      some (["root/src/main.cpp".toList, "root/src/data.unknownext".toList,
        "root/notes.txt".toList], []) ∧
    hiddenUnreadable.wellFormed = true ∧ hiddenUnreadable.beforeFault ⟨false, false⟩ = none ∧
    getAllFiles ⟨false, false⟩ "root".toList (.directory hiddenUnreadable) =
      some (["root/b.txt".toList], []) :=
  ⟨by decide, by decide,
    (getAllFiles_exact ⟨false, false⟩ "root".toList sampleTree (by decide) (by decide)).1.trans
      (by decide),
    by decide, by decide,
    (getAllFiles_exact ⟨false, false⟩ "root".toList hiddenUnreadable (by decide)
      (by decide)).1.trans (by decide)⟩

/-- C2, counterexample: the walk root `.git` is a hidden directory, `showHidden`
is false, and the file `config` under it is returned. -/
theorem pruning_root_counterexample :
    isHiddenName (filename ".git".toList) = true ∧
    isHiddenFile ".git".toList = some true ∧
    getAllFiles ⟨false, false⟩ ".git".toList (.directory (.file "config".toList .nil)) =
      some ([".git/config".toList], []) := by
  decide

/-- C2, amended: in a well-formed tree, when `showHidden` is false, a regular
file that has a hidden directory among its ancestors below the walk root is
never in the vector `getAllFiles` returns, whether or not the file itself is
hidden or binary and whether or not a directory fails to open. -/
theorem pruning_below_root (cfg : Configuration) (dirPath : Str) (T : Entries) (p : Str)
    (anc : List Str) (hwf : T.wellFormed = true) (hs : cfg.showHiddenFiles = false)
    (hp : (p, anc) ∈ regularFiles dirPath T) (hh : ∃ a ∈ anc, isHiddenName a = true) :
    ∃ files errs, getAllFiles cfg dirPath (.directory T) = some (files, errs) ∧ p ∉ files := by
  obtain ⟨files, errs, hg, hpre⟩ := getAllFiles_prefix cfg dirPath T hwf
  refine ⟨files, errs, hg, fun hmem => ?_⟩
  have hl := hpre.subset hmem
  rw [mem_listing] at hl
  obtain ⟨anc', h1, h2⟩ := hl
  have := regularFiles_unique T dirPath hwf p anc' anc h1 hp
  subst this
  obtain ⟨a, ha, hha⟩ := hh
  have hany : anc'.any (pruned cfg) = true := by
    rw [List.any_eq_true]
    exact ⟨a, ha, by simp [pruned, hs, hha]⟩
  simp [included, hany] at h2

/-- Witness of the amended C2: `root/.git/config` on `sampleTree`. -/
theorem pruning_below_root_witness :
    ∃ files errs, getAllFiles ⟨false, false⟩ "root".toList (.directory sampleTree)
      = some (files, errs) ∧ "root/.git/config".toList ∉ files :=
  pruning_below_root ⟨false, false⟩ "root".toList sampleTree "root/.git/config".toList
    [".git".toList] (by decide) rfl (by decide) ⟨".git".toList, by decide, by decide⟩

/-- C3: for every well-formed tree, every policy and every outcome `fs` of the
reads (any subset may fail), `explore` runs to the end of the list that
`getAllFiles` returned: the `displayFileContent` calls are made for exactly the
files of the list, in list order, one call per file; in particular every file
whose read succeeds is displayed exactly once, in order. -/
theorem explore_every_file_once (cfg : Configuration) (isText : Str → Bool)
    (fs : Str → FileState) (dirPath : Str) (T : Entries) (files errs : List Str)
    (hwf : T.wellFormed = true)
    (hg : getAllFiles cfg dirPath (.directory T) = some (files, errs)) :
    ∃ events, explore cfg isText fs dirPath (.directory T) = some events ∧
      displayed events = files ∧
      (∀ f ∈ files, (fs f).readSucceeds = true → (displayed events).count f = 1) ∧
      (displayed events).filter (fun f => (fs f).readSucceeds) =
        files.filter (fun f => (fs f).readSucceeds) := by
  have hd : displayed (errs.map Event.cerr ++ exploreFiles isText fs dirPath files) = files := by
    rw [displayed_append, displayed_cerr, displayed_exploreFiles, List.nil_append]
  refine ⟨errs.map Event.cerr ++ exploreFiles isText fs dirPath files, by simp [explore, hg],
    hd, ?_, by rw [hd]⟩
  intro f hf _
  rw [hd]
  obtain ⟨files', errs', hg', hpre⟩ := getAllFiles_prefix cfg dirPath T hwf
  rw [hg] at hg'
  obtain ⟨rfl, rfl⟩ := Prod.mk.inj (Option.some.inj hg')
  have hnd : files.Nodup := (listing_nodup cfg dirPath T hwf).sublist hpre.sublist
  exact count_eq_one files f hnd hf

/-- Witness of C3: three files, the read of the second one fails, and the
first and the third are still displayed. -/
theorem explore_every_file_once_witness :
    ∃ events, explore ⟨false, false⟩ (isTextMimeType [".txt".toList]) secondMissing
        "root".toList (.directory threeFiles) = some events ∧
      displayed events = ["root/a.txt".toList, "root/b.txt".toList, "root/c.txt".toList] ∧
      (∀ f ∈ ["root/a.txt".toList, "root/b.txt".toList, "root/c.txt".toList],
        (secondMissing f).readSucceeds = true → (displayed events).count f = 1) ∧
      (displayed events).filter (fun f => (secondMissing f).readSucceeds) =
        ["root/a.txt".toList, "root/b.txt".toList, "root/c.txt".toList].filter
          (fun f => (secondMissing f).readSucceeds) :=
  explore_every_file_once ⟨false, false⟩ (isTextMimeType [".txt".toList]) secondMissing
    "root".toList threeFiles _ [] (by decide) (by decide)

/-- C4, the code at the failing input: with three files of which the second
cannot be opened, `explore` writes the diagnostic of `readFile` and then calls
`displayFileContent` for the second file as well, with the error text that
`readFile` returned as its content. -/
theorem explore_displays_failed_read :
    explore ⟨false, false⟩ (isTextMimeType [".txt".toList]) secondMissing "root".toList
        (.directory threeFiles) =
      some [Event.display "root".toList "root/a.txt".toList "hi".toList,
        Event.cerr "mavu: error: filesystem error: Cannot open file: Success [root/b.txt]".toList,
        Event.display "root".toList "root/b.txt".toList
          "mavu: cannot open file \x60root/b.txt\x60".toList,
        Event.display "root".toList "root/c.txt".toList "hi".toList] := by
  decide

/-- C5, counterexample: the directory `a` cannot be opened and is enumerated
before its sibling `b.txt`, an includable regular file; `getAllFiles` reports
one error and returns no file at all. -/
theorem subtree_failure_counterexample :
    "root/b.txt".toList ∈ listing ⟨false, false⟩ "root".toList unreadableFirst ∧
    getAllFiles ⟨false, false⟩ "root".toList (.directory unreadableFirst) =
      some ([], ["mavu: error: filesystem error: cannot increment recursive directory iterator: Permission denied while accessing directory \x60root\x60".toList]) := by
  decide

/-- C5, amended: when the walk of a well-formed tree opens a directory that
cannot be read (or visits an entry whose status cannot be read),
`getAllFiles` writes exactly one error line and returns exactly
the includable files enumerated before that directory, in order; this is a
prefix of the duplicate-free listing of the whole tree, so neither the files
under that directory nor those of the entries enumerated after it are
returned. -/
theorem subtree_failure_stops_walk (cfg : Configuration) (dirPath : Str) (T T' : Entries)
    (hwf : T.wellFormed = true) (hf : T.beforeFault cfg = some T') :
    ∃ line, getAllFiles cfg dirPath (.directory T) = some (listing cfg dirPath T', [line]) ∧
      listing cfg dirPath T' <+: listing cfg dirPath T ∧
      (listing cfg dirPath T).Nodup := by
  obtain ⟨line, hl⟩ := getAllFiles_threw cfg dirPath T T' hwf hf
  exact ⟨line, hl, listing_beforeFault cfg T T' dirPath hf, listing_nodup cfg dirPath T hwf⟩

/-- Witness of the amended C5 on `nestedUnreadable`: the files before
`src/gen` are returned, `src/util.cpp` and `z.txt` are not. -/
theorem subtree_failure_stops_walk_witness :
    ∃ line, getAllFiles ⟨false, false⟩ "root".toList (.directory nestedUnreadable) =
        some (["root/a.txt".toList, "root/src/main.cpp".toList], [line]) ∧
      ["root/a.txt".toList, "root/src/main.cpp".toList] <+:
        ["root/a.txt".toList, "root/src/main.cpp".toList, "root/src/util.cpp".toList,
          "root/z.txt".toList] ∧
      ["root/a.txt".toList, "root/src/main.cpp".toList, "root/src/util.cpp".toList,
          "root/z.txt".toList].Nodup :=
  subtree_failure_stops_walk ⟨false, false⟩ "root".toList nestedUnreadable
    (.file "a.txt".toList (.dir "src".toList true (.file "main.cpp".toList .nil) .nil))
    (by decide) (by decide)

/-- C6: when `dirPath` is missing, is not a directory or may not be opened,
`getAllFiles` returns normally with the empty vector and exactly one error
line, and `explore` then writes that line and displays nothing. -/
theorem root_failure (cfg : Configuration) (isText : Str → Bool) (fs : Str → FileState)
    (dirPath : Str) (root : Root)
    (h : root = .missing ∨ root = .notDirectory ∨ root = .permissionDenied) :
    ∃ line events, getAllFiles cfg dirPath root = some ([], [line]) ∧
      explore cfg isText fs dirPath root = some events ∧
      displayed events = [] ∧ cerrLines events = [line] := by
  rcases h with rfl | rfl | rfl <;>
    exact ⟨_, _, rfl, rfl, rfl, rfl⟩

/-- Witness of C6: the root path names a regular file. -/
theorem root_failure_witness :
    ∃ line events,
      getAllFiles ⟨false, false⟩ "root/a.txt".toList .notDirectory = some ([], [line]) ∧
      explore ⟨false, false⟩ (fun _ => true) (fun _ => .content []) "root/a.txt".toList
        .notDirectory = some events ∧
      displayed events = [] ∧ cerrLines events = [line] :=
  root_failure ⟨false, false⟩ (fun _ => true) (fun _ => .content []) "root/a.txt".toList
    .notDirectory (Or.inr (Or.inl rfl))

/-- C7: for every file of the list `getAllFiles` returned whose read succeeds
with content `c`, `explore` calls `displayFileContent` with `convertToHex c`
when `hasBinaryExtension` is true or `isTextMimeType` is false, and with `c`
otherwise, and with nothing else; the binary set decides first, whatever
`isTextMimeType` answers, as for `a.json`, `b.csv` and `c.xml`. -/
theorem explore_hex_decision (cfg : Configuration) (isText : Str → Bool)
    (fs : Str → FileState) (dirPath : Str) (root : Root) (files errs : List Str)
    (file c : Str) (hg : getAllFiles cfg dirPath root = some (files, errs))
    (hm : file ∈ files) (hc : fs file = .content c) :
    ∃ events, explore cfg isText fs dirPath root = some events ∧
      Event.display dirPath file (rendered isText file c) ∈ events ∧
      (∀ b x, Event.display b file x ∈ events → x = rendered isText file c) ∧
      (hasBinaryExtension file = true → rendered isText file c = convertToHex c) ∧
      (c ≠ [] → (rendered isText file c = convertToHex c ↔
        (hasBinaryExtension file = true ∨ isText file = false))) ∧
      hasBinaryExtension "a.json".toList = true ∧ hasBinaryExtension "b.csv".toList = true ∧
      hasBinaryExtension "c.xml".toList = true := by
  have hr : (if (hasBinaryExtension file || !isText file) = true then
        convertToHex (readFile fs file).1 else (readFile fs file).1) = rendered isText file c := by
    rw [readFile_ok fs file c hc]
    unfold rendered
    cases hasBinaryExtension file <;> cases isText file <;> simp
  refine ⟨errs.map Event.cerr ++ exploreFiles isText fs dirPath files, by simp [explore, hg],
    ?_, ?_, ?_, ?_, by decide, by decide, by decide⟩
  · rw [List.mem_append]
    exact Or.inr ((mem_exploreFiles isText fs dirPath files dirPath file _).mpr ⟨hm, rfl, hr.symm⟩)
  · intro b x hx
    rw [List.mem_append] at hx
    rcases hx with hx | hx
    · simp at hx
    · rw [← hr]
      exact ((mem_exploreFiles isText fs dirPath files b file x).mp hx).2.2
  · intro hb
    simp [rendered, hb]
  · intro hne
    unfold rendered
    constructor
    · intro h
      by_contra hcon
      rw [if_neg hcon] at h
      exact convertToHex_ne c hne h.symm
    · intro h
      rw [if_pos h]

/-- Witness of C7: `a.json` holding `hi` is displayed as `68 69 ` although the
text check accepts every file. -/
theorem explore_hex_decision_witness :
    ∃ events, explore ⟨true, true⟩ (fun _ => true) (fun _ => .content "hi".toList) "root".toList
        (.directory (.file "a.json".toList .nil)) = some events ∧
      Event.display "root".toList "root/a.json".toList "68 69 ".toList ∈ events :=
  have h := explore_hex_decision ⟨true, true⟩ (fun _ => true) (fun _ => .content "hi".toList)
    "root".toList (.directory (.file "a.json".toList .nil)) ["root/a.json".toList] []
    "root/a.json".toList "hi".toList (by decide) (by decide) rfl
  h.imp fun _ hh => ⟨hh.1, hh.2.1⟩

/-- C9: `hasBinaryExtension p` is true iff the extension of `p` is a member of
`binaryExtensions`, compared as it is; the extension is the last dot-segment
of the file name with its dot (and empty when that dot is the first character
of the name, when the name is `..`, or when there is no dot), so it is never
one of `.tar.gz`, `.tar.bz2`, `.tar.xz`, which can be dropped from the set;
two paths with the same extension get the same answer; `x.tar.gz` is binary
through `.gz` and `IMG.PNG` is not binary. -/
theorem hasBinaryExtension_spec (p q : Str) :
    (hasBinaryExtension p = true ↔ extension p ∈ binaryExtensions) ∧
    (∀ stem suffix, filename p = stem ++ '.' :: suffix → '.' ∉ suffix →
      extension p = if stem = [] ∨ (stem = ['.'] ∧ suffix = []) then [] else '.' :: suffix) ∧
    ('.' ∉ filename p → extension p = []) ∧
    extension p ∉ multiSegment ∧
    hasBinaryExtension p = (binaryExtensions.filter (fun e => !multiSegment.contains e)).contains
      (extension p) ∧
    (extension p = extension q → hasBinaryExtension p = hasBinaryExtension q) ∧
    extension "x.tar.gz".toList = ".gz".toList ∧ hasBinaryExtension "x.tar.gz".toList = true ∧
    extension "IMG.PNG".toList = ".PNG".toList ∧ hasBinaryExtension "IMG.PNG".toList = false := by
  have hmulti : extension p ∉ multiSegment := by
    intro hm
    rcases extension_shape p with h | ⟨suffix, hs, h⟩
    · rw [h] at hm
      exact absurd hm (by decide)
    · rw [h] at hm
      simp only [multiSegment, List.mem_cons, List.mem_singleton, List.not_mem_nil, or_false] at hm
      rcases hm with hm | hm | hm <;>
        · have hsuf := (List.cons.inj hm).2
          rw [hsuf] at hs
          exact hs (by decide)
  refine ⟨by simp [hasBinaryExtension], fun stem suffix hf hs => extension_of_split p stem suffix hf hs,
    extension_no_period p, hmulti, ?_, fun h => by simp [hasBinaryExtension, h],
    by decide, by decide, by decide, by decide⟩
  unfold hasBinaryExtension
  rw [Bool.eq_iff_iff]
  simp only [List.contains_iff_exists_mem_beq, beq_iff_eq, exists_eq_right, List.mem_filter,
    Bool.not_eq_true', Bool.eq_false_iff, ne_eq, not_exists, not_and]
  constructor
  · rintro ⟨a, ha, e⟩
    exact ⟨a, ⟨ha, fun x hx ex => hmulti (by rw [e, ex]; exact hx)⟩, e⟩
  · rintro ⟨a, ⟨ha, _⟩, e⟩
    exact ⟨a, ha, e⟩

/-- Witness of C9: the file name `archive.tar.gz` split at its last period. -/
theorem hasBinaryExtension_spec_witness :
    extension "dir/archive.tar.gz".toList = ".gz".toList ∧
    hasBinaryExtension "dir/archive.tar.gz".toList = hasBinaryExtension "b.gz".toList :=
  have h := hasBinaryExtension_spec "dir/archive.tar.gz".toList "b.gz".toList
  ⟨h.2.1 "archive.tar".toList "gz".toList (by decide) (by decide), h.2.2.2.2.2.1 (by decide)⟩

/-- C10: for a path whose final component `name` is not empty, `isHiddenFile`
returns whether the first character of `name` is a period, whatever the
directory components before it are. -/
theorem isHiddenFile_final_component (dir name : Str) (hn : name ≠ []) (hs : '/' ∉ name) :
    isHiddenFile (dir ++ '/' :: name) = some (decide (name.head? = some '.')) ∧
    isHiddenFile name = some (decide (name.head? = some '.')) ∧
    filename (dir ++ '/' :: name) = name ∧ filename name = name := by
  have h1 := filename_append dir name hs
  have h2 := filename_self name hs
  refine ⟨?_, ?_, h1, h2⟩
  · unfold isHiddenFile charAt
    rw [h1]
    cases name with
    | nil => exact absurd rfl hn
    | cons c cs =>
      simp only [List.cons_append, List.getElem?_cons_zero, Option.map_some', List.head?_cons,
        Option.some.injEq]
      rfl
  · unfold isHiddenFile charAt
    rw [h2]
    cases name with
    | nil => exact absurd rfl hn
    | cons c cs =>
      simp only [List.cons_append, List.getElem?_cons_zero, Option.map_some', List.head?_cons,
        Option.some.injEq]
      rfl

/-- Witness of C10: `.git/config` is not hidden and `src/.env` is. -/
theorem isHiddenFile_final_component_witness :
    isHiddenFile ".git/config".toList = some false ∧ isHiddenFile "src/.env".toList = some true :=
  ⟨(isHiddenFile_final_component ".git".toList "config".toList (by decide) (by decide)).1,
   (isHiddenFile_final_component "src".toList ".env".toList (by decide) (by decide)).1⟩

/-! ## The hex encoding -/

theorem hexValue_hexDigit (n : Nat) (h : n < 16) : hexValue (hexDigit n) = some n := by
  interval_cases n <;> decide

theorem hexDigit_lower (n : Nat) (h : n < 16) : hexDigit n = lowerHexDigits.getD n '?' := by
  interval_cases n <;> decide

theorem convertToHex_cons (c : Char) (B : Str) :
    convertToHex (c :: B) = hexToken (c.toNat % 256) ++ convertToHex B := by
  have h1 : c.toNat % 256 / 16 < 16 := by omega
  have h2 : c.toNat % 256 % 16 < 16 := by omega
  simp [convertToHex, hexToken, hexDigit_lower _ h1, hexDigit_lower _ h2]

theorem convertToHex_append (A B : Str) :
    convertToHex (A ++ B) = convertToHex A ++ convertToHex B := by
  induction A with
  | nil => rfl
  | cons c cs ih => simp [convertToHex, ih]

theorem hexDecode_convertToHex (B : Str) (hB : ∀ c ∈ B, c.toNat < 256) :
    hexDecode (convertToHex B) = some B := by
  induction B with
  | nil => rfl
  | cons c cs ih =>
    have hc : c.toNat < 256 := hB c (by simp)
    have h1 : c.toNat % 256 / 16 < 16 := by omega
    have h2 : c.toNat % 256 % 16 < 16 := by omega
    have hn : 16 * (c.toNat % 256 / 16) + c.toNat % 256 % 16 = c.toNat := by omega
    simp only [convertToHex, hexDecode, if_true, hexValue_hexDigit _ h1, hexValue_hexDigit _ h2,
      ih (fun x hx => hB x (by simp [hx])), hn]
    simp [Char.ofNat_toNat]

/-! ## Order and policies -/

theorem regularFiles_sublist_preorder (T : Entries) :
    ∀ d : Str, ((regularFiles d T).map Prod.fst).Sublist (preorder d T) := by
  induction T with
  | nil => intro d; simp [regularFiles, preorder]
  | file n rest ih =>
    intro d
    simpa [regularFiles, preorder] using ih d
  | other n rest ih =>
    intro d
    simp only [regularFiles, preorder]
    exact (ih d).cons _
  | dir n r ch rest ihc ihr =>
    intro d
    simp only [regularFiles, preorder, List.map_append, List.map_map]
    have hfst : (Prod.fst ∘ fun x : Str × List Str => (x.1, n :: x.2)) = Prod.fst := rfl
    rw [hfst]
    exact ((ihc (pathAppend d n)).append (ihr d)).cons _
  | noStatus n rest ih =>
    intro d
    simp only [regularFiles, preorder]
    exact (ih d).cons _

theorem listing_sublist_preorder (cfg : Configuration) (d : Str) (T : Entries) :
    (listing cfg d T).Sublist (preorder d T) :=
  (listing_sublist cfg d T).trans (regularFiles_sublist_preorder T d)

theorem regularFiles_append (A B : Entries) :
    ∀ d : Str, regularFiles d (A.append B) = regularFiles d A ++ regularFiles d B := by
  induction A with
  | nil => intro d; rfl
  | file n rest ih => intro d; simp [Entries.append, regularFiles, ih d]
  | other n rest ih => intro d; simp [Entries.append, regularFiles, ih d]
  | dir n r ch rest _ ih => intro d; simp [Entries.append, regularFiles, ih d]
  | noStatus n rest ih => intro d; simp [Entries.append, regularFiles, ih d]

theorem listing_append (cfg : Configuration) (d : Str) (A B : Entries) :
    listing cfg d (A.append B) = listing cfg d A ++ listing cfg d B := by
  simp [listing, regularFiles_append]

/-- The walk stops at an entry whose status cannot be read, as it does at a
directory that cannot be opened. -/
theorem getAllFiles_unsearchable :
    getAllFiles ⟨false, false⟩ "root".toList (.directory unsearchable) =
      some (["root/a.txt".toList], ["mavu: error: filesystem error: status: Permission denied [root/d/x] while accessing directory \x60root\x60".toList]) := by
  decide

/-! ## The properties of the spec, continued -/

/-- C12: for every sequence `B` of bytes (characters of value 0..255),
decoding `convertToHex B` as two-digit hexadecimal tokens, each followed by a
space, gives `B` again; hence `convertToHex` is injective on byte
sequences. -/
theorem hex_round_trip (A B : Str) (hA : ∀ c ∈ A, c.toNat < 256)
    (hB : ∀ c ∈ B, c.toNat < 256) :
    hexDecode (convertToHex B) = some B ∧ (convertToHex A = convertToHex B → A = B) := by
  refine ⟨hexDecode_convertToHex B hB, fun h => ?_⟩
  have h1 := hexDecode_convertToHex A hA
  rw [h, hexDecode_convertToHex B hB] at h1
  exact (Option.some.inj h1).symm

/-- Witness of C12: the three bytes `89 50 4e` and the two bytes `hi`. -/
theorem hex_round_trip_witness :
    hexDecode (convertToHex pngBytes) = some pngBytes ∧
    (convertToHex "hi".toList = convertToHex pngBytes → "hi".toList = pngBytes) :=
  hex_round_trip "hi".toList pngBytes (by decide) (by decide)

/-- C13: `convertToHex B` is the concatenation, in order, of one token per
byte of `B` (read as an unsigned value, `toNat % 256`): its two lower-case
hexadecimal digits, zero-padded, and one space; the length is three times
that of `B`, the empty string gives the empty string, and `convertToHex`
distributes over concatenation. -/
theorem convertToHex_format (A B : Str) :
    convertToHex B = (B.map (fun c => hexToken (c.toNat % 256))).flatten ∧
    (∀ c ∈ B, (hexToken (c.toNat % 256)).length = 3 ∧
      (hexToken (c.toNat % 256)).take 2 ⊆ lowerHexDigits ∧
      (hexToken (c.toNat % 256)).drop 2 = [' ']) ∧
    (convertToHex B).length = 3 * B.length ∧
    convertToHex [] = [] ∧
    convertToHex (A ++ B) = convertToHex A ++ convertToHex B ∧
    convertToHex [Char.ofNat 0, Char.ofNat 10, 'a', Char.ofNat 255] = "00 0a 61 ff ".toList := by
  refine ⟨?_, ?_, length_convertToHex B, rfl, convertToHex_append A B, by decide⟩
  · induction B with
    | nil => rfl
    | cons c cs ih => rw [convertToHex_cons, ih]; simp
  · intro c _
    have h1 : c.toNat % 256 / 16 < 16 := by omega
    have h2 : c.toNat % 256 % 16 < 16 := by omega
    refine ⟨rfl, ?_, rfl⟩
    intro x hx
    simp only [hexToken, List.take_succ_cons, List.take_zero, List.mem_cons, List.mem_singleton,
      List.not_mem_nil, or_false] at hx
    have hmem : ∀ n, n < 16 → lowerHexDigits.getD n '?' ∈ lowerHexDigits := by
      intro n hn
      interval_cases n <;> decide
    rcases hx with rfl | rfl
    · exact hmem _ h1
    · exact hmem _ h2

/-- C17, the code at the failing input: for a path that cannot be opened,
`readFile` returns a string, the error text, and writes one diagnostic; it
does not raise an exception to its caller. -/
theorem readFile_returns_on_failure :
    secondMissing "root/b.txt".toList = .cannotOpen ∧
    readFile secondMissing "root/b.txt".toList =
      ("mavu: cannot open file \x60root/b.txt\x60".toList,
       ["mavu: error: filesystem error: Cannot open file: Success [root/b.txt]".toList]) := by
  decide

/-- C18, counterexample: the path `root/d` can be opened and reading it
throws (it is a directory); `readFile` writes one diagnostic and returns the
text `mavu: unknown error while reading file` with the path, not the content
of the file. -/
theorem readFile_open_counterexample :
    readThrowsAt "root/d".toList =
      .readThrows "basic_filebuf::underflow error reading the file: Is a directory".toList ∧
    readFile readThrowsAt "root/d".toList =
      ("mavu: unknown error while reading file \x60root/d\x60".toList,
       ["mavu: error: basic_filebuf::underflow error reading the file: Is a directory".toList]) := by
  decide

/-- C18, amended: `readFile` returns the entire content of a file that opens
and is read through, and writes nothing; for a file that cannot be opened it
writes one diagnostic and returns the text made of `mavu: cannot open file`,
a backquote, the path and a backquote; for a file that opens and whose read
throws it writes one diagnostic and returns the text made of
`mavu: unknown error while reading file`, a backquote, the path and a
backquote; whatever the `try` block does, a string is returned. -/
theorem readFile_spec (fs : Str → FileState) (filePath : Str) :
    (∀ c, fs filePath = .content c → readFile fs filePath = (c, [])) ∧
    (fs filePath = .cannotOpen →
      (readFile fs filePath).1 = "mavu: cannot open file \x60".toList ++ filePath ++ "\x60".toList ∧
      (readFile fs filePath).2.length = 1) ∧
    (∀ w, fs filePath = .readThrows w →
      (readFile fs filePath).1 =
        "mavu: unknown error while reading file \x60".toList ++ filePath ++ "\x60".toList ∧
      (readFile fs filePath).2 = ["mavu: error: ".toList ++ w]) ∧
    ∃ s diag, readFile fs filePath = (s, diag) := by
  refine ⟨fun c hc => readFile_ok fs filePath c hc, fun h => ?_, fun w h => ?_, _, _, rfl⟩
  · simp [readFile, readFileTry, h, SOFTWARE_NAME]
  · simp [readFile, readFileTry, h, SOFTWARE_NAME]

/-- Witness of the amended C18: `root/a.txt` holds `hi`, `root/b.txt` cannot
be opened, and reading `root/d` throws. -/
theorem readFile_spec_witness :
    readFile secondMissing "root/a.txt".toList = ("hi".toList, []) ∧
    (readFile secondMissing "root/b.txt".toList).1
      = "mavu: cannot open file \x60root/b.txt\x60".toList ∧
    (readFile readThrowsAt "root/d".toList).1
      = "mavu: unknown error while reading file \x60root/d\x60".toList :=
  ⟨(readFile_spec secondMissing "root/a.txt".toList).1 "hi".toList (by decide),
   ((readFile_spec secondMissing "root/b.txt".toList).2.1 (by decide)).1,
   ((readFile_spec readThrowsAt "root/d".toList).2.2.1
     "basic_filebuf::underflow error reading the file: Is a directory".toList (by decide)).1⟩

/-- C14: for every well-formed tree and policy, the vector `getAllFiles`
returns is a sublist (order kept) of the depth-first pre-order enumeration of
the entries and a prefix of the listing; and in the listing the files of a
subdirectory stand together, after the listed files of the entries enumerated
before that subdirectory and before those of the entries enumerated after
it. -/
theorem traversal_order (cfg : Configuration) (dirPath : Str) (T : Entries)
    (hwf : T.wellFormed = true) :
    ∃ files errs, getAllFiles cfg dirPath (.directory T) = some (files, errs) ∧
      files.Sublist (preorder dirPath T) ∧
      files <+: listing cfg dirPath T ∧
      (T.beforeFault cfg = none → files = listing cfg dirPath T) ∧
      ∀ before name readable children after,
        T = before.append (.dir name readable children after) →
        listing cfg dirPath T =
          listing cfg dirPath before ++
            (if pruned cfg name then [] else listing cfg (pathAppend dirPath name) children) ++
            listing cfg dirPath after := by
  obtain ⟨files, errs, hg, hpre⟩ := getAllFiles_prefix cfg dirPath T hwf
  refine ⟨files, errs, hg, hpre.sublist.trans (listing_sublist_preorder cfg dirPath T), hpre,
    ?_, ?_⟩
  · intro hnf
    have := getAllFiles_finished cfg dirPath T hwf hnf
    rw [hg] at this
    exact (Prod.mk.inj (Option.some.inj this)).1
  · intro before name readable children after hT
    rw [hT, listing_append, listing_dir]
    split <;> simp

/-- Witness of C14 on `sampleTree`, split at the directory `src`. -/
theorem traversal_order_witness :
    ∃ files errs, getAllFiles ⟨false, false⟩ "root".toList (.directory sampleTree)
        = some (files, errs) ∧
      files.Sublist (preorder "root".toList sampleTree) ∧
      listing ⟨false, false⟩ "root".toList sampleTree =
        listing ⟨false, false⟩ "root".toList
            (.dir ".git".toList true (.file "config".toList .nil) .nil) ++
          ["root/src/main.cpp".toList, "root/src/data.unknownext".toList] ++
          ["root/notes.txt".toList] :=
  have h := traversal_order ⟨false, false⟩ "root".toList sampleTree (by decide)
  h.imp fun _ h1 => h1.imp fun _ h2 =>
    ⟨h2.1, h2.2.1, h2.2.2.2.2
      (.dir ".git".toList true (.file "config".toList .nil) .nil) "src".toList true
      (.file "main.cpp".toList (.file "data.unknownext".toList (.file "logo.png".toList .nil)))
      (.other "sock".toList (.file ".env".toList (.file "notes.txt".toList .nil))) rfl⟩

/-- C15: with `showHidden` and `showBinary` false, the tree `a.txt`,
`.secret`, `img.png` under `root` is listed as `root/a.txt` alone, and
`explore` makes one `displayFileContent` call, for `root/a.txt` with the
content `hi` unchanged, when `.txt` is a text extension. -/
theorem end_to_end_restrictive (textExtensions : List Str)
    (ht : ".txt".toList ∈ textExtensions) :
    getAllFiles ⟨false, false⟩ "root".toList (.directory scenarioTree) =
      some (["root/a.txt".toList], []) ∧
    explore ⟨false, false⟩ (isTextMimeType textExtensions) scenarioFs "root".toList
        (.directory scenarioTree) =
      some [Event.display "root".toList "root/a.txt".toList "hi".toList] := by
  have hg : getAllFiles ⟨false, false⟩ "root".toList (.directory scenarioTree) =
      some (["root/a.txt".toList], []) := by decide
  have hb : hasBinaryExtension "root/a.txt".toList = false := by decide
  have he : extension "root/a.txt".toList = ".txt".toList := by decide
  have hr : readFile scenarioFs "root/a.txt".toList = ("hi".toList, []) := by decide
  have htx : isTextMimeType textExtensions "root/a.txt".toList = true := by
    simp only [isTextMimeType, he]
    simpa using ht
  refine ⟨hg, ?_⟩
  simp only [explore, hg, exploreFiles, exploreFile, hb, htx, hr]
  rfl

/-- Witness of C15 with the text extensions `.txt` and `.md`. -/
theorem end_to_end_restrictive_witness :
    explore ⟨false, false⟩ (isTextMimeType [".txt".toList, ".md".toList]) scenarioFs
        "root".toList (.directory scenarioTree) =
      some [Event.display "root".toList "root/a.txt".toList "hi".toList] :=
  (end_to_end_restrictive [".txt".toList, ".md".toList] (by decide)).2

/-- The permissive end-to-end scenario: with both flags true the three files
are listed; when `.txt` is a text extension, `a.txt` is displayed verbatim and
`img.png` as the hex encoding of its three bytes, and `.secret`, whose
extension is empty, is displayed verbatim if the empty extension is a text
extension and as the hex encoding of its content otherwise. -/
theorem end_to_end_permissive (textExtensions : List Str)
    (ht : ".txt".toList ∈ textExtensions) :
    getAllFiles ⟨true, true⟩ "root".toList (.directory scenarioTree) =
      some (["root/a.txt".toList, "root/.secret".toList, "root/img.png".toList], []) ∧
    explore ⟨true, true⟩ (isTextMimeType textExtensions) scenarioFs "root".toList
        (.directory scenarioTree) =
      some [Event.display "root".toList "root/a.txt".toList "hi".toList,
        Event.display "root".toList "root/.secret".toList
          (if [] ∈ textExtensions then ".txt hidden".toList
           else convertToHex ".txt hidden".toList),
        Event.display "root".toList "root/img.png".toList (convertToHex pngBytes)] := by
  have hg : getAllFiles ⟨true, true⟩ "root".toList (.directory scenarioTree) =
      some (["root/a.txt".toList, "root/.secret".toList, "root/img.png".toList], []) := by decide
  have hb1 : hasBinaryExtension "root/a.txt".toList = false := by decide
  have hb2 : hasBinaryExtension "root/.secret".toList = false := by decide
  have hb3 : hasBinaryExtension "root/img.png".toList = true := by decide
  have he1 : extension "root/a.txt".toList = ".txt".toList := by decide
  have he2 : extension "root/.secret".toList = [] := by decide
  have hr1 : readFile scenarioFs "root/a.txt".toList = ("hi".toList, []) := by decide
  have hr2 : readFile scenarioFs "root/.secret".toList = (".txt hidden".toList, []) := by decide
  have hr3 : readFile scenarioFs "root/img.png".toList = (pngBytes, []) := by decide
  have htx : isTextMimeType textExtensions "root/a.txt".toList = true := by
    simp only [isTextMimeType, he1]
    simpa using ht
  refine ⟨hg, ?_⟩
  by_cases hs : [] ∈ textExtensions
  · have h2 : isTextMimeType textExtensions "root/.secret".toList = true := by
      simp only [isTextMimeType, he2]
      simpa using hs
    simp only [explore, hg, exploreFiles, exploreFile, hb1, hb2, hb3, htx, h2, hr1, hr2, hr3,
      if_pos hs]
    rfl
  · have h2 : isTextMimeType textExtensions "root/.secret".toList = false := by
      simp only [isTextMimeType, he2]
      simpa using hs
    simp only [explore, hg, exploreFiles, exploreFile, hb1, hb2, hb3, htx, h2, hr1, hr2, hr3,
      if_neg hs]
    rfl

end Mavu
